import Mathlib

/-!
Shallow embedding of `rustache` (src/lib.rs): a single-process memoization
cache (`CacheNode`) built on an insertion-ordered map (`linked_hash_map`),
with TTL expiration and a capacity-bounded FIFO eviction policy.

Modelling conventions:
* the `LinkedHashMap<Rc<K>, Rc<V>>` is a `List (K × V)` whose head is the
  oldest entry; the crate's `insert` moves an existing key to the back with
  the new value, `get` does not reorder, `pop_front` removes the head;
* `chrono::Utc::now()` is an explicit `now : Nat` argument (seconds) given
  to each operation that reads the clock; `chrono::Duration::seconds` is
  `Nat` addition;
* `&mut self` methods return the updated node next to their result;
* the `Fn(K) -> V` computation of the `Memoized<C>` controller is a Lean
  function `K → V`.
-/

namespace Rustache

def DEFAULT_TTL_DURATION : Nat := 10

def DEFAULT_CACHE_CAPACITY : Nat := 8

inductive RevalidationAction where
  | EXPIRE
  | REVALIDATE
deriving DecidableEq, Repr

inductive TtlSetting where
  | Blocking
  | Swr
deriving DecidableEq, Repr

structure RevalidationSettings where
  action : RevalidationAction
  duration : Nat
  setting : TtlSetting
deriving DecidableEq, Repr

structure TtlOptions where
  revalidation : RevalidationSettings
  expiration : Option Nat
deriving DecidableEq, Repr

structure Initialized where
deriving DecidableEq, Repr

structure Memoized (K V : Type) where
  calculation : K → V

structure CacheNode (K V S : Type) where
  cache : List (K × V)
  ttl : TtlOptions
  capacity : Nat
  controller : S

/-- `linked_hash_map::LinkedHashMap::get`: the value stored at `k`, without
reordering. -/
def lhmGet {K V : Type} [DecidableEq K] : List (K × V) → K → Option V
  | [], _ => none
  | p :: rest, k => if p.1 = k then some p.2 else lhmGet rest k

/-- `linked_hash_map::LinkedHashMap::insert`: store `v` at `k`; an existing
entry for `k` is dropped from its place and the pair goes to the back. -/
def lhmInsert {K V : Type} [DecidableEq K] (m : List (K × V)) (k : K) (v : V) :
    List (K × V) :=
  m.filter (fun p => decide (p.1 ≠ k)) ++ [(k, v)]

namespace CacheNode

variable {K V S : Type} [DecidableEq K]

/-- `CacheNode::new`: defaults (EXPIRE, duration 10, Blocking, no
expiration, capacity 8, no computation). -/
def new : CacheNode K V Initialized :=
  { cache := []
    ttl :=
      { revalidation :=
          { action := RevalidationAction.EXPIRE
            duration := DEFAULT_TTL_DURATION
            setting := TtlSetting.Blocking }
        expiration := none }
    capacity := DEFAULT_CACHE_CAPACITY
    controller := Initialized.mk }

/-- `NodeCapacityController::capacity` (the builder setter; named apart from
the `capacity` field, which Lean reserves for the projection). -/
def set_capacity (n : CacheNode K V S) (entries : Nat) : CacheNode K V S :=
  { n with capacity := entries }

/-- `NodeCapacityController::check_capacity`: `Ok` iff `cache.len() < capacity`. -/
def check_capacity (n : CacheNode K V S) : Bool :=
  n.cache.length < n.capacity

/-- `NodeCapacityController::clean_up`: pop the oldest entry; `false` stands
for `Err(())` (nothing to evict). -/
def clean_up (n : CacheNode K V S) : Bool × CacheNode K V S :=
  match n.cache with
  | [] => (false, n)
  | _ :: rest => (true, { n with cache := rest })

/-- `NodeExpirationController::expires`: set the expiration instant to
`now + seconds` and the revalidation duration to `seconds`. -/
def expires (n : CacheNode K V S) (seconds : Nat) (now : Nat) : CacheNode K V S :=
  { n with
      ttl :=
        { revalidation := { n.ttl.revalidation with duration := seconds }
          expiration := some (now + seconds) } }

/-- `NodeExpirationController::revalidate`: choose the stale-read action. -/
def revalidate (n : CacheNode K V S) (status : Bool) : CacheNode K V S :=
  if status = true then
    { n with
        ttl :=
          { n.ttl with
              revalidation :=
                { n.ttl.revalidation with action := RevalidationAction.REVALIDATE } } }
  else
    { n with
        ttl :=
          { n.ttl with
              revalidation :=
                { n.ttl.revalidation with action := RevalidationAction.EXPIRE } } }

/-- `NodeExpirationController::validate_expiration`: `true` for `Ok(())`
(fresh), `false` for `Err("expired")` — expired iff an expiration instant is
set and `now` is strictly after it. -/
def validate_expiration (n : CacheNode K V S) (now : Nat) : Bool :=
  match n.ttl.expiration with
  | some expiration => if now > expiration then false else true
  | none => true

/-- The `ttl.expiration` update shared by every stale branch:
`now + revalidation.duration`. -/
def slide_expiration (n : CacheNode K V S) (now : Nat) : CacheNode K V S :=
  { n with
      ttl := { n.ttl with expiration := some (now + n.ttl.revalidation.duration) } }

/-- `CacheNode::<Initialized>::get`: fresh hit returns the value; stale hit
under REVALIDATE slides the expiration and returns it; stale hit under
EXPIRE slides the expiration, clears the cache and returns `None`; a miss
returns `None`. -/
def get (n : CacheNode K V Initialized) (key : K) (now : Nat) :
    Option V × CacheNode K V Initialized :=
  match lhmGet n.cache key with
  | some v =>
    if n.validate_expiration now then (some v, n)
    else if n.ttl.revalidation.action = RevalidationAction.REVALIDATE then
      (some v, n.slide_expiration now)
    else
      (none, { n.slide_expiration now with cache := [] })
  | none => (none, n)

/-- `CacheNode::<Initialized>::insert`: under capacity insert directly;
otherwise evict the oldest via `clean_up`, and when even that finds nothing
clear the whole cache, then insert. -/
def insert (n : CacheNode K V S) (key : K) (value : V) : CacheNode K V S :=
  if n.check_capacity then { n with cache := lhmInsert n.cache key value }
  else
    match n.clean_up with
    | (true, m) => { m with cache := lhmInsert m.cache key value }
    | (false, m) => { m with cache := lhmInsert ([] : List (K × V)) key value }

/-- `CacheNode::with_memo`: attach the computation; every other field is
moved over unchanged. -/
def with_memo (n : CacheNode K V Initialized) (calculation : K → V) :
    CacheNode K V (Memoized K V) :=
  { cache := n.cache
    capacity := n.capacity
    ttl := n.ttl
    controller := { calculation := calculation } }

/-- `CacheNode::<Memoized>::memoize`: invoke the computation and store the
result unconditionally (no capacity check). -/
def memoize (n : CacheNode K V (Memoized K V)) (args : K) :
    V × CacheNode K V (Memoized K V) :=
  let v := n.controller.calculation args
  (v, { n with cache := lhmInsert n.cache args v })

/-- `CacheNode::<Memoized>::value`: fresh hit serves the store; stale hit
under REVALIDATE slides the expiration and serves the store; stale hit under
EXPIRE slides the expiration, clears and memoizes; a miss memoizes after the
capacity check, evicting (or clearing, when eviction finds nothing) first. -/
def value (n : CacheNode K V (Memoized K V)) (args : K) (now : Nat) :
    Option V × CacheNode K V (Memoized K V) :=
  match lhmGet n.cache args with
  | some v =>
    if n.validate_expiration now then (some v, n)
    else if n.ttl.revalidation.action = RevalidationAction.REVALIDATE then
      (some v, n.slide_expiration now)
    else
      let m := { n.slide_expiration now with cache := ([] : List (K × V)) }
      let r := m.memoize args
      (some r.1, r.2)
  | none =>
    if n.check_capacity then
      let r := n.memoize args
      (some r.1, r.2)
    else
      match n.clean_up with
      | (true, m) =>
        let r := m.memoize args
        (some r.1, r.2)
      | (false, m) =>
        let m := { m with cache := ([] : List (K × V)) }
        let r := m.memoize args
        (some r.1, r.2)

/-- How many times `value` invokes the attached computation: `memoize` calls
it exactly once, so this mirrors the branch structure of `value` — 0 on a
fresh hit and on a REVALIDATE stale hit, 1 on an EXPIRE stale hit and on
every miss branch. -/
def valueCalls (n : CacheNode K V (Memoized K V)) (args : K) (now : Nat) : Nat :=
  match lhmGet n.cache args with
  | some _ =>
    if n.validate_expiration now then 0
    else if n.ttl.revalidation.action = RevalidationAction.REVALIDATE then 0
    else 1
  | none => 1

end CacheNode

/-- One mutating operation of the Memo-Bound stage that the capacity claim
ranges over (the body of `insert` never touches the controller in the
source, so it applies to this stage unchanged). -/
inductive Op (K V : Type) where
  | insert (key : K) (value : V)
  | value (args : K) (now : Nat)

/-- Apply one operation to a Memo-Bound node, keeping the updated node. -/
def applyOp {K V : Type} [DecidableEq K] (n : CacheNode K V (Memoized K V)) :
    Op K V → CacheNode K V (Memoized K V)
  | Op.insert k v => n.insert k v
  | Op.value k t => (n.value k t).2

/-- Fold a whole operation sequence over a node. -/
def runOps {K V : Type} [DecidableEq K] (n : CacheNode K V (Memoized K V))
    (ops : List (Op K V)) : CacheNode K V (Memoized K V) :=
  ops.foldl applyOp n

/-- Insert a list of key/value pairs in order (repeated `insert`). -/
def insertAll {K V S : Type} [DecidableEq K] (n : CacheNode K V S)
    (ps : List (K × V)) : CacheNode K V S :=
  ps.foldl (fun m p => m.insert p.1 p.2) n

/-- Iterate `value` on the same key and instant, keeping the node. -/
def valueIter {K V : Type} [DecidableEq K] (n : CacheNode K V (Memoized K V))
    (k : K) (t : Nat) : Nat → CacheNode K V (Memoized K V)
  | 0 => n
  | m + 1 => ((valueIter n k t m).value k t).2

/-- Call `value` on a list of keys in order (repeated `value`), keeping the
node. -/
def valueAll {K V : Type} [DecidableEq K] (n : CacheNode K V (Memoized K V))
    (ks : List K) (t : Nat) : CacheNode K V (Memoized K V) :=
  ks.foldl (fun m k => (m.value k t).2) n

section Lemmas

variable {K V S : Type} [DecidableEq K]

theorem lhmInsert_length_le (m : List (K × V)) (k : K) (v : V) :
    (lhmInsert m k v).length ≤ m.length + 1 := by
  unfold lhmInsert
  rw [List.length_append, List.length_singleton]
  exact Nat.add_le_add_right (List.length_filter_le _ _) 1

theorem lhmInsert_of_not_mem_keys {m : List (K × V)} {k : K} (v : V)
    (h : k ∉ m.map Prod.fst) : lhmInsert m k v = m ++ [(k, v)] := by
  unfold lhmInsert
  congr 1
  apply List.filter_eq_self.mpr
  intro p hp
  rw [decide_eq_true_eq]
  intro hpk
  exact h (hpk ▸ List.mem_map_of_mem Prod.fst hp)

theorem lhmGet_append_of_forall_ne {l : List (K × V)} {k : K}
    (h : ∀ p ∈ l, p.1 ≠ k) (l2 : List (K × V)) :
    lhmGet (l ++ l2) k = lhmGet l2 k := by
  induction l with
  | nil => rfl
  | cons p l ih =>
    rw [List.cons_append]
    have hne : p.1 ≠ k := h p (List.mem_cons_self p l)
    simp only [lhmGet, if_neg hne]
    exact ih fun q hq => h q (List.mem_cons_of_mem p hq)

theorem lhmGet_lhmInsert_self (m : List (K × V)) (k : K) (v : V) :
    lhmGet (lhmInsert m k v) k = some v := by
  unfold lhmInsert
  rw [lhmGet_append_of_forall_ne]
  · simp [lhmGet]
  · intro p hp
    have := List.of_mem_filter hp
    rwa [decide_eq_true_eq] at this

theorem insert_fields {K V S : Type} [DecidableEq K] (n : CacheNode K V S)
    (k : K) (v : V) :
    (n.insert k v).capacity = n.capacity ∧ (n.insert k v).ttl = n.ttl ∧
      (n.insert k v).controller = n.controller := by
  unfold CacheNode.insert CacheNode.clean_up
  cases hc : n.cache with
  | nil => split <;> simp [hc]
  | cons p rest => split <;> simp [hc]

theorem insert_length_le {K V S : Type} [DecidableEq K] (n : CacheNode K V S)
    (k : K) (v : V) (hcap : 1 ≤ n.capacity)
    (hlen : n.cache.length ≤ n.capacity) :
    (n.insert k v).cache.length ≤ n.capacity := by
  unfold CacheNode.insert
  by_cases h : n.cache.length < n.capacity
  · have hck : n.check_capacity = true := by
      simpa [CacheNode.check_capacity] using h
    rw [if_pos hck]
    exact le_trans (lhmInsert_length_le n.cache k v) h
  · have hck : ¬ n.check_capacity = true := by
      simpa [CacheNode.check_capacity] using h
    rw [if_neg hck]
    cases hc : n.cache with
    | nil =>
      exfalso
      rw [hc] at h
      exact h (Nat.lt_of_lt_of_le Nat.zero_lt_one hcap)
    | cons p rest =>
      simp only [CacheNode.clean_up, hc]
      have h1 : (lhmInsert rest k v).length ≤ rest.length + 1 :=
        lhmInsert_length_le rest k v
      have h2 : rest.length + 1 = n.cache.length := by rw [hc]; rfl
      exact le_trans h1 (h2 ▸ hlen)

theorem value_fields {K V : Type} [DecidableEq K]
    (n : CacheNode K V (Memoized K V)) (k : K) (t : Nat) :
    ((n.value k t).2).capacity = n.capacity ∧
      ((n.value k t).2).controller = n.controller := by
  unfold CacheNode.value
  cases hg : lhmGet n.cache k with
  | some v =>
    by_cases hf : n.validate_expiration t = true
    · simp [hf]
    · by_cases ha : n.ttl.revalidation.action = RevalidationAction.REVALIDATE
      · simp [hf, ha, CacheNode.slide_expiration]
      · simp [hf, ha, CacheNode.slide_expiration, CacheNode.memoize]
  | none =>
    by_cases hck : n.check_capacity = true
    · simp [hck, CacheNode.memoize]
    · cases hc : n.cache with
      | nil => simp [hck, CacheNode.clean_up, hc, CacheNode.memoize]
      | cons p rest => simp [hck, CacheNode.clean_up, hc, CacheNode.memoize]

theorem value_length_le {K V : Type} [DecidableEq K]
    (n : CacheNode K V (Memoized K V)) (k : K) (t : Nat)
    (hcap : 1 ≤ n.capacity) (hlen : n.cache.length ≤ n.capacity) :
    ((n.value k t).2).cache.length ≤ n.capacity := by
  unfold CacheNode.value
  cases hg : lhmGet n.cache k with
  | some v =>
    by_cases hf : n.validate_expiration t = true
    · simpa [hf] using hlen
    · by_cases ha : n.ttl.revalidation.action = RevalidationAction.REVALIDATE
      · simpa [hf, ha, CacheNode.slide_expiration] using hlen
      · simp only [hf, ha, CacheNode.memoize, CacheNode.slide_expiration]
        simpa [lhmInsert] using hcap
  | none =>
    by_cases h : n.cache.length < n.capacity
    · have hck : n.check_capacity = true := by
        simpa [CacheNode.check_capacity] using h
      simp only [hck, CacheNode.memoize]
      exact le_trans (lhmInsert_length_le _ _ _) h
    · have hck : ¬ n.check_capacity = true := by
        simpa [CacheNode.check_capacity] using h
      simp only [hck]
      cases hc : n.cache with
      | nil =>
        exfalso
        rw [hc] at h
        exact h (Nat.lt_of_lt_of_le Nat.zero_lt_one hcap)
      | cons p rest =>
        simp only [CacheNode.clean_up, hc, CacheNode.memoize]
        have h2 : rest.length + 1 ≤ n.capacity := by
          rw [hc] at hlen
          simpa using hlen
        exact le_trans (lhmInsert_length_le _ _ _) h2

theorem applyOp_capacity {K V : Type} [DecidableEq K]
    (n : CacheNode K V (Memoized K V)) (op : Op K V) :
    (applyOp n op).capacity = n.capacity := by
  cases op with
  | insert k v => exact (insert_fields n k v).1
  | value k t => exact (value_fields n k t).1

theorem applyOp_length_le {K V : Type} [DecidableEq K]
    (n : CacheNode K V (Memoized K V)) (op : Op K V) (hcap : 1 ≤ n.capacity)
    (hlen : n.cache.length ≤ n.capacity) :
    (applyOp n op).cache.length ≤ n.capacity := by
  cases op with
  | insert k v => exact insert_length_le n k v hcap hlen
  | value k t => exact value_length_le n k t hcap hlen

theorem value_expire_present_stale {K V : Type} [DecidableEq K]
    (m : CacheNode K V (Memoized K V)) (k : K) (v : V) (now : Nat)
    (hp : lhmGet m.cache k = some v)
    (hs : m.validate_expiration now = false)
    (ha : m.ttl.revalidation.action = RevalidationAction.EXPIRE) :
    (m.value k now).1 = some (m.controller.calculation k) ∧
    (m.value k now).2.cache = [(k, m.controller.calculation k)] ∧
    (m.value k now).2.ttl.expiration
      = some (now + m.ttl.revalidation.duration) := by
  unfold CacheNode.value
  refine ⟨?_, ?_, ?_⟩ <;>
    simp [hp, hs, ha, CacheNode.slide_expiration, CacheNode.memoize, lhmInsert]

theorem value_miss {K V : Type} [DecidableEq K]
    (n : CacheNode K V (Memoized K V)) (k : K) (t : Nat)
    (hg : lhmGet n.cache k = none) :
    ∃ X : List (K × V),
      n.value k t = (some (n.controller.calculation k),
        { cache := lhmInsert X k (n.controller.calculation k), ttl := n.ttl,
          capacity := n.capacity, controller := n.controller }) := by
  unfold CacheNode.value
  rw [hg]
  by_cases hck : n.check_capacity = true
  · exact ⟨n.cache, by simp [hck, CacheNode.memoize]⟩
  · cases hc : n.cache with
    | nil =>
      exact ⟨[], by simp [hck, CacheNode.clean_up, hc, CacheNode.memoize]⟩
    | cons p rest =>
      exact ⟨rest, by simp [hck, CacheNode.clean_up, hc, CacheNode.memoize]⟩

theorem insertAll_under_capacity {K V S : Type} [DecidableEq K]
    (ps : List (K × V)) (n : CacheNode K V S)
    (hnd : ((n.cache ++ ps).map Prod.fst).Nodup)
    (hlen : n.cache.length + ps.length ≤ n.capacity) :
    (insertAll n ps).cache = n.cache ++ ps ∧
    (insertAll n ps).capacity = n.capacity ∧
    (insertAll n ps).ttl = n.ttl := by
  induction ps generalizing n with
  | nil => simp [insertAll]
  | cons p ps ih =>
    simp only [List.length_cons] at hlen
    have hck : n.check_capacity = true := by
      unfold CacheNode.check_capacity
      simp only [decide_eq_true_eq]
      omega
    have hnotmem : p.1 ∉ n.cache.map Prod.fst := by
      rw [List.map_append] at hnd
      intro hmem
      exact List.disjoint_of_nodup_append hnd hmem (by simp)
    have hins : n.insert p.1 p.2 = { n with cache := n.cache ++ [p] } := by
      unfold CacheNode.insert
      rw [if_pos hck, lhmInsert_of_not_mem_keys p.2 hnotmem]
    have hstep : insertAll n (p :: ps) = insertAll (n.insert p.1 p.2) ps := rfl
    rw [hstep, hins]
    have hnd' : ((({ n with cache := n.cache ++ [p] } : CacheNode K V S).cache
        ++ ps).map Prod.fst).Nodup := by
      simpa using hnd
    have hlen' :
        ({ n with cache := n.cache ++ [p] } : CacheNode K V S).cache.length
          + ps.length
          ≤ ({ n with cache := n.cache ++ [p] } : CacheNode K V S).capacity := by
      simp only [List.length_append, List.length_singleton]
      omega
    obtain ⟨h1, h2, h3⟩ := ih _ hnd' hlen'
    refine ⟨?_, h2, h3⟩
    rw [h1]
    simp

theorem insert_at_capacity {K V S : Type} [DecidableEq K]
    (n : CacheNode K V S) (k : K) (v : V) (q0 : K × V) (qt : List (K × V))
    (hcache : n.cache = q0 :: qt)
    (hfull : ¬ n.cache.length < n.capacity)
    (hnot : k ∉ qt.map Prod.fst) :
    (n.insert k v).cache = qt ++ [(k, v)] := by
  unfold CacheNode.insert
  have hck : ¬ n.check_capacity = true := by
    unfold CacheNode.check_capacity
    simpa using hfull
  rw [if_neg hck]
  simp [CacheNode.clean_up, hcache, lhmInsert_of_not_mem_keys v hnot]

theorem get_fresh_preserves {K V : Type} [DecidableEq K]
    (n : CacheNode K V Initialized) (k : K) (now : Nat)
    (hfresh : n.validate_expiration now = true) :
    ((n.get k now).2).cache = n.cache := by
  unfold CacheNode.get
  cases hg : lhmGet n.cache k with
  | some v => simp [hfresh]
  | none => simp

theorem lhmGet_eq_none_of_not_mem {K V : Type} [DecidableEq K]
    {m : List (K × V)} {k : K} (h : k ∉ m.map Prod.fst) :
    lhmGet m k = none := by
  induction m with
  | nil => rfl
  | cons p rest ih =>
    simp only [List.map_cons, List.mem_cons, not_or] at h
    obtain ⟨h1, h2⟩ := h
    unfold lhmGet
    rw [if_neg (fun he => h1 he.symm), ih h2]

theorem value_under_capacity {K V : Type} [DecidableEq K]
    (n : CacheNode K V (Memoized K V)) (k : K) (t : Nat)
    (hget : lhmGet n.cache k = none)
    (hroom : n.cache.length < n.capacity) :
    (n.value k t).2
      = { n with cache := lhmInsert n.cache k (n.controller.calculation k) } := by
  unfold CacheNode.value
  rw [hget]
  have hck : n.check_capacity = true := by
    unfold CacheNode.check_capacity
    simpa using hroom
  simp [hck, CacheNode.memoize]

theorem valueAll_under_capacity {K V : Type} [DecidableEq K]
    (ks : List K) (n : CacheNode K V (Memoized K V)) (t : Nat)
    (hexp : n.ttl.expiration = none)
    (hnd : (n.cache.map Prod.fst ++ ks).Nodup)
    (hlen : n.cache.length + ks.length ≤ n.capacity) :
    (valueAll n ks t).cache
      = n.cache ++ ks.map (fun k => (k, n.controller.calculation k)) ∧
    (valueAll n ks t).capacity = n.capacity ∧
    (valueAll n ks t).ttl = n.ttl ∧
    (valueAll n ks t).controller = n.controller := by
  induction ks generalizing n with
  | nil => simp [valueAll]
  | cons k ks ih =>
    simp only [List.length_cons] at hlen
    have hnot : k ∉ n.cache.map Prod.fst := by
      intro hmem
      exact List.disjoint_of_nodup_append hnd hmem (by simp)
    have hget : lhmGet n.cache k = none := lhmGet_eq_none_of_not_mem hnot
    have hroom : n.cache.length < n.capacity := by omega
    have hrun := value_under_capacity n k t hget hroom
    have hstep : valueAll n (k :: ks) t = valueAll ((n.value k t).2) ks t := rfl
    rw [hstep, hrun, lhmInsert_of_not_mem_keys _ hnot]
    have hexp' : ({ n with
        cache := n.cache ++ [(k, n.controller.calculation k)] } :
          CacheNode K V (Memoized K V)).ttl.expiration = none := hexp
    have hnd' : (({ n with
        cache := n.cache ++ [(k, n.controller.calculation k)] } :
          CacheNode K V (Memoized K V)).cache.map Prod.fst ++ ks).Nodup := by
      simpa using hnd
    have hlen' : ({ n with
        cache := n.cache ++ [(k, n.controller.calculation k)] } :
          CacheNode K V (Memoized K V)).cache.length + ks.length
        ≤ ({ n with
            cache := n.cache ++ [(k, n.controller.calculation k)] } :
              CacheNode K V (Memoized K V)).capacity := by
      simp only [List.length_append, List.length_singleton]
      omega
    obtain ⟨h1, h2, h3, h4⟩ := ih _ hexp' hnd' hlen'
    refine ⟨?_, h2, h3, h4⟩
    rw [h1]
    simp

theorem value_at_capacity {K V : Type} [DecidableEq K]
    (n : CacheNode K V (Memoized K V)) (k : K) (t : Nat) (q0 : K × V)
    (qt : List (K × V))
    (hcache : n.cache = q0 :: qt)
    (hget : lhmGet n.cache k = none)
    (hfull : ¬ n.cache.length < n.capacity)
    (hnot : k ∉ qt.map Prod.fst) :
    ((n.value k t).2).cache = qt ++ [(k, n.controller.calculation k)] ∧
    ((n.value k t).2).ttl = n.ttl := by
  unfold CacheNode.value
  rw [hget]
  have hck : ¬ n.check_capacity = true := by
    unfold CacheNode.check_capacity
    simpa using hfull
  constructor <;>
    simp [hck, CacheNode.clean_up, hcache, CacheNode.memoize,
      lhmInsert_of_not_mem_keys (n.controller.calculation k) hnot]

theorem value_fresh_hit_preserves {K V : Type} [DecidableEq K]
    (n : CacheNode K V (Memoized K V)) (k : K) (now : Nat)
    (hfresh : n.validate_expiration now = true)
    (hsome : (lhmGet n.cache k).isSome = true) :
    (n.value k now).2 = n := by
  unfold CacheNode.value
  cases hg : lhmGet n.cache k with
  | none =>
    rw [hg] at hsome
    simp at hsome
  | some v => simp [hfresh]

end Lemmas

/-- Concrete `square` computation used by the concrete instances below. -/
def sq : Nat → Nat := fun x => x * x

/-- A Memo-Bound node over `Nat` with capacity 1 and the default TTL options. -/
def memoCap1 : CacheNode Nat Nat (Memoized Nat Nat) :=
  ((CacheNode.new).set_capacity 1).with_memo sq

/-- A Memo-Bound node over `Nat` with the degenerate capacity 0. -/
def memoCap0 : CacheNode Nat Nat (Memoized Nat Nat) :=
  ((CacheNode.new).set_capacity 0).with_memo sq

/-- An Unconfigured node holding `(1, 10)` whose TTL expired at instant 0,
with the default EXPIRE action. -/
def expNode : CacheNode Nat Nat Initialized :=
  ((CacheNode.new).expires 0 0).insert 1 10

/-- The Memo-Bound counterpart of `expNode`. -/
def expMemo : CacheNode Nat Nat (Memoized Nat Nat) :=
  expNode.with_memo sq

/-- Like `expMemo` but configured with the REVALIDATE action. -/
def revMemo : CacheNode Nat Nat (Memoized Nat Nat) :=
  ((((CacheNode.new).expires 0 0).revalidate true).insert 1 10).with_memo sq

/-- A Memo-Bound node over `Nat` with an empty store whose TTL expired at
instant 0, under the default EXPIRE action. -/
def staleEmpty : CacheNode Nat Nat (Memoized Nat Nat) :=
  ((CacheNode.new).expires 0 0).with_memo sq

/-- The capacity-0 Memo-Bound node with default TTL options and an attached
computation `f`. -/
def capZeroNode {K V : Type} [DecidableEq K] (f : K → V) :
    CacheNode K V (Memoized K V) :=
  ((CacheNode.new).set_capacity 0).with_memo f

section Claims

variable {K V S : Type} [DecidableEq K]

/-- Claim C1 (counterexample): the capacity bound fails as stated. On a
capacity-1 node, two `memoize` calls leave two entries (`memoize` stores
unconditionally, with no capacity check); and on a capacity-0 node a single
`value` call leaves one entry (the clear-and-insert fallback overshoots). -/
theorem C1_capacity_counterexample :
    memoCap1.capacity = 1 ∧
    ((memoCap1.memoize 1).2.memoize 2).2.cache.length = 2 ∧
    memoCap0.capacity = 0 ∧
    (memoCap0.value 2 0).2.cache.length = 1 := by
  refine ⟨rfl, ?_, rfl, ?_⟩ <;> rfl

/-- Claim C1 (amended): for a node of capacity at least 1 whose store
satisfies the bound, the bound `cache.length ≤ capacity` still holds (at the
unchanged capacity) after any sequence of `insert` and `value` operations —
`memoize` and the capacity-0 configuration are the exceptions shown in the
counterexample. -/
theorem C1_capacity_invariant (n : CacheNode K V (Memoized K V))
    (ops : List (Op K V)) (hcap : 1 ≤ n.capacity)
    (hlen : n.cache.length ≤ n.capacity) :
    (runOps n ops).cache.length ≤ (runOps n ops).capacity ∧
      (runOps n ops).capacity = n.capacity := by
  induction ops generalizing n with
  | nil => exact ⟨hlen, rfl⟩
  | cons op ops ih =>
    have hstep : runOps n (op :: ops) = runOps (applyOp n op) ops := rfl
    have hc := applyOp_capacity n op
    have hl := applyOp_length_le n op hcap hlen
    have hcap' : 1 ≤ (applyOp n op).capacity := by omega
    have hlen' : (applyOp n op).cache.length ≤ (applyOp n op).capacity := by
      omega
    obtain ⟨h1, h2⟩ := ih (applyOp n op) hcap' hlen'
    rw [hstep]
    exact ⟨h1, by omega⟩

/-- Claim C1 (witness): the amended invariant at a concrete capacity-1 node
and a concrete operation sequence. -/
theorem C1_capacity_invariant_witness :
    1 ≤ memoCap1.capacity ∧ memoCap1.cache.length ≤ memoCap1.capacity ∧
    ((runOps memoCap1 [Op.insert 1 10, Op.value 2 0]).cache.length ≤
        (runOps memoCap1 [Op.insert 1 10, Op.value 2 0]).capacity ∧
      (runOps memoCap1 [Op.insert 1 10, Op.value 2 0]).capacity
        = memoCap1.capacity) :=
  ⟨by decide, by decide,
    C1_capacity_invariant memoCap1 [Op.insert 1 10, Op.value 2 0]
      (by decide) (by decide)⟩

variable {K V S : Type} [DecidableEq K]

/-- Claim C2: on a Memo-Bound node, `value` produces `Some` in every branch:
a fresh hit serves the store, a stale hit is handled by the revalidation
policy (REVALIDATE serves the store, EXPIRE recomputes), and a miss computes
via `memoize`; the caller never observes a miss. -/
theorem C2_value_always_some (n : CacheNode K V (Memoized K V)) (args : K)
    (now : Nat) : ((n.value args now).1).isSome = true := by
  unfold CacheNode.value
  split
  · split
    · rfl
    · split
      · rfl
      · rfl
  · split
    · rfl
    · split
      · rfl
      · rfl

/-- Claim C3 (counterexample): the EXPIRE sweep does not happen on every
read after the expiration instant. `expMemo` is expired at instant 1 under
EXPIRE, key 2 is absent from its store, yet `value 2` at instant 1 leaves
the old entry in place (2 entries, nothing cleared) and does not reset the
expiration instant; `get 2` on the Unconfigured node likewise changes
nothing. -/
theorem C3_expire_absent_key_counterexample :
    expMemo.ttl.revalidation.action = RevalidationAction.EXPIRE ∧
    expMemo.validate_expiration 1 = false ∧
    lhmGet expMemo.cache 2 = none ∧
    (expMemo.value 2 1).2.cache.length = 2 ∧
    (expMemo.value 2 1).2.ttl.expiration = some 0 ∧
    (expNode.get 2 1).2.cache.length = 1 ∧
    (expNode.get 2 1).2.ttl.expiration = some 0 := by
  refine ⟨rfl, rfl, rfl, rfl, rfl, rfl, rfl⟩

/-- Claim C3 (amended): under the EXPIRE action, a read via `value` or `get`
of a key that is *present* in the store at an instant strictly after the
expiration instant clears every entry, resets the expiration instant to
`now + revalidationDuration`, and for `value` triggers fresh computation of
the requested key (which is then the sole entry); reads of absent keys take
the miss path and touch neither the store nor the expiration. -/
theorem C3_expire_clears_present_stale (n : CacheNode K V Initialized)
    (f : K → V) (k : K) (v : V) (now : Nat)
    (hpresent : lhmGet n.cache k = some v)
    (hstale : n.validate_expiration now = false)
    (hact : n.ttl.revalidation.action = RevalidationAction.EXPIRE) :
    ((n.with_memo f).value k now).1 = some (f k) ∧
    ((n.with_memo f).value k now).2.cache = [(k, f k)] ∧
    ((n.with_memo f).value k now).2.ttl.expiration
      = some (now + n.ttl.revalidation.duration) ∧
    (n.get k now).1 = none ∧
    (n.get k now).2.cache = [] ∧
    (n.get k now).2.ttl.expiration = some (now + n.ttl.revalidation.duration) := by
  have h1 : lhmGet (n.with_memo f).cache k = some v := hpresent
  have h2 : (n.with_memo f).validate_expiration now = false := hstale
  have h3 : (n.with_memo f).ttl.revalidation.action = RevalidationAction.EXPIRE :=
    hact
  obtain ⟨hv1, hv2, hv3⟩ := value_expire_present_stale (n.with_memo f) k v now
    h1 h2 h3
  refine ⟨hv1, hv2, hv3, ?_, ?_, ?_⟩
  · unfold CacheNode.get
    simp [hpresent, hstale, hact]
  · unfold CacheNode.get
    simp [hpresent, hstale, hact]
  · unfold CacheNode.get
    simp [hpresent, hstale, hact, CacheNode.slide_expiration]

/-- Claim C3 (witness): the amended statement at `expNode`/`expMemo`, key 1,
instant 1. -/
theorem C3_expire_clears_witness :
    lhmGet expNode.cache 1 = some 10 ∧
    expNode.validate_expiration 1 = false ∧
    expNode.ttl.revalidation.action = RevalidationAction.EXPIRE ∧
    (((expNode.with_memo sq).value 1 1).1 = some (sq 1) ∧
      ((expNode.with_memo sq).value 1 1).2.cache = [(1, sq 1)] ∧
      ((expNode.with_memo sq).value 1 1).2.ttl.expiration
        = some (1 + expNode.ttl.revalidation.duration) ∧
      (expNode.get 1 1).1 = none ∧
      (expNode.get 1 1).2.cache = [] ∧
      (expNode.get 1 1).2.ttl.expiration
        = some (1 + expNode.ttl.revalidation.duration)) :=
  ⟨by decide, by decide, by decide,
    C3_expire_clears_present_stale expNode sq 1 10 1 (by decide) (by decide)
      (by decide)⟩

/-- Claim C4: under the REVALIDATE action, a read of a key present in the
store after the expiration instant returns exactly the stored value, invokes
the computation zero times, leaves the store unchanged, slides the
expiration instant to `now + revalidationDuration`, and leaves the node
fresh, so an immediately following read of the same key is a fresh hit of
the same value. -/
theorem C4_revalidate_serves_stale (n : CacheNode K V (Memoized K V))
    (k : K) (v : V) (now : Nat)
    (hpresent : lhmGet n.cache k = some v)
    (hstale : n.validate_expiration now = false)
    (hact : n.ttl.revalidation.action = RevalidationAction.REVALIDATE) :
    (n.value k now).1 = some v ∧
    n.valueCalls k now = 0 ∧
    (n.value k now).2.cache = n.cache ∧
    (n.value k now).2.ttl.expiration
      = some (now + n.ttl.revalidation.duration) ∧
    (n.value k now).2.validate_expiration now = true ∧
    ((n.value k now).2.value k now).1 = some v := by
  have hrun : n.value k now = (some v, n.slide_expiration now) := by
    unfold CacheNode.value
    simp [hpresent, hstale, hact]
  have hfresh : (n.slide_expiration now).validate_expiration now = true := by
    unfold CacheNode.slide_expiration CacheNode.validate_expiration
    simp only []
    rw [if_neg (Nat.not_lt.mpr (Nat.le_add_right now _))]
  refine ⟨by rw [hrun], ?_, by rw [hrun]; rfl, by rw [hrun]; rfl, ?_, ?_⟩
  · unfold CacheNode.valueCalls
    simp [hpresent, hstale, hact]
  · rw [hrun]
    exact hfresh
  · rw [hrun]
    have hp : lhmGet (n.slide_expiration now).cache k = some v := hpresent
    unfold CacheNode.value
    simp [hp, hfresh]

/-- Claim C4 (witness): the statement at `revMemo`, key 1, stored value 10,
instant 1. -/
theorem C4_revalidate_witness :
    lhmGet revMemo.cache 1 = some 10 ∧
    revMemo.validate_expiration 1 = false ∧
    revMemo.ttl.revalidation.action = RevalidationAction.REVALIDATE ∧
    ((revMemo.value 1 1).1 = some 10 ∧
      revMemo.valueCalls 1 1 = 0 ∧
      (revMemo.value 1 1).2.cache = revMemo.cache ∧
      (revMemo.value 1 1).2.ttl.expiration
        = some (1 + revMemo.ttl.revalidation.duration) ∧
      (revMemo.value 1 1).2.validate_expiration 1 = true ∧
      ((revMemo.value 1 1).2.value 1 1).1 = some 10) :=
  ⟨by decide, by decide, by decide,
    C4_revalidate_serves_stale revMemo 1 10 1 (by decide) (by decide)
      (by decide)⟩

/-- Claim C5: FIFO eviction, on both insertion routes. Inserting `c + 1`
distinct keys into a node of capacity `c ≥ 1` (starting empty, no
intervening re-reads) — whether by `insert` on the Unconfigured stage or by
`value` misses on the Memo-Bound stage — leaves exactly the inserted
entries minus the first one, in insertion order: the first-inserted key,
and only it, was evicted. Moreover reading a key on the resulting
(never-expiring) node — any key via `get`, a present key via `value` —
leaves the store unchanged: reads do not move an entry toward the back. -/
theorem C5_fifo_eviction (c : Nat) (ps : List (K × V)) (f : K → V)
    (ks : List K) (t : Nat) (hc : 1 ≤ c)
    (hlen : ps.length = c + 1) (hnd : (ps.map Prod.fst).Nodup)
    (hklen : ks.length = c + 1) (hknd : ks.Nodup) :
    (insertAll ((CacheNode.new).set_capacity c) ps).cache = ps.drop 1 ∧
    (∀ (k : K) (now : Nat),
      ((insertAll ((CacheNode.new).set_capacity c) ps).get k now).2.cache
        = (insertAll ((CacheNode.new).set_capacity c) ps).cache) ∧
    (valueAll (((CacheNode.new).set_capacity c).with_memo f) ks t).cache
      = (ks.map (fun k => (k, f k))).drop 1 ∧
    ∀ (k : K) (now : Nat),
      (lhmGet (valueAll (((CacheNode.new).set_capacity c).with_memo f) ks
          t).cache k).isSome = true →
      ((valueAll (((CacheNode.new).set_capacity c).with_memo f) ks
          t).value k now).2
        = valueAll (((CacheNode.new).set_capacity c).with_memo f) ks t := by
  have hvalue :
      (valueAll (((CacheNode.new).set_capacity c).with_memo f) ks t).cache
        = (ks.map (fun k => (k, f k))).drop 1 ∧
      ∀ (k : K) (now : Nat),
        (lhmGet (valueAll (((CacheNode.new).set_capacity c).with_memo f) ks
            t).cache k).isSome = true →
        ((valueAll (((CacheNode.new).set_capacity c).with_memo f) ks
            t).value k now).2
          = valueAll (((CacheNode.new).set_capacity c).with_memo f) ks t := by
    have hks : ks ≠ [] := by
      intro h
      rw [h] at hklen
      simp at hklen
    obtain ⟨kq, kl, rfl⟩ : ∃ kq kl, ks = kq ++ [kl] :=
      ⟨ks.dropLast, ks.getLast hks, (List.dropLast_append_getLast hks).symm⟩
    have hkqlen : kq.length = c := by
      rw [List.length_append] at hklen
      simpa using hklen
    have hnd1 : (((((CacheNode.new : CacheNode K V Initialized).set_capacity
        c).with_memo f).cache.map Prod.fst) ++ kq).Nodup :=
      hknd.of_append_left
    have hlen1 : (((CacheNode.new : CacheNode K V Initialized).set_capacity
        c).with_memo f).cache.length + kq.length
        ≤ (((CacheNode.new : CacheNode K V Initialized).set_capacity
          c).with_memo f).capacity := by
      show 0 + kq.length ≤ c
      omega
    obtain ⟨hc1, hcap1, httl1, hctrl1⟩ := valueAll_under_capacity kq
      (((CacheNode.new : CacheNode K V Initialized).set_capacity
        c).with_memo f) t rfl hnd1 hlen1
    have hc1' : (valueAll (((CacheNode.new : CacheNode K V
        Initialized).set_capacity c).with_memo f) kq t).cache
        = kq.map (fun k => (k, f k)) := by
      rw [hc1]
      rfl
    have hsplit : valueAll (((CacheNode.new : CacheNode K V
        Initialized).set_capacity c).with_memo f) (kq ++ [kl]) t
        = ((valueAll (((CacheNode.new).set_capacity c).with_memo f) kq
          t).value kl t).2 := by
      unfold valueAll
      rw [List.foldl_append]
      rfl
    cases kq with
    | nil =>
      exfalso
      simp at hkqlen
      omega
    | cons kq0 kqt =>
      have hcache' : (valueAll (((CacheNode.new : CacheNode K V
          Initialized).set_capacity c).with_memo f) (kq0 :: kqt) t).cache
          = (kq0, f kq0) :: kqt.map (fun k => (k, f k)) := by
        rw [hc1']
        rfl
      have hklnot : kl ∉ kq0 :: kqt := fun hmem =>
        List.disjoint_of_nodup_append hknd hmem (by simp)
      have hget : lhmGet (valueAll (((CacheNode.new : CacheNode K V
          Initialized).set_capacity c).with_memo f) (kq0 :: kqt) t).cache kl
          = none := by
        apply lhmGet_eq_none_of_not_mem
        rw [hcache']
        simpa using hklnot
      have hfull : ¬ (valueAll (((CacheNode.new : CacheNode K V
          Initialized).set_capacity c).with_memo f) (kq0 :: kqt)
            t).cache.length
          < (valueAll (((CacheNode.new).set_capacity c).with_memo f)
            (kq0 :: kqt) t).capacity := by
        rw [hcache', hcap1]
        show ¬ (kqt.map (fun k => (k, f k))).length + 1 < c
        simp only [List.length_map]
        simp only [List.length_cons] at hkqlen
        omega
      have hklnotq : kl ∉ (kqt.map (fun k => (k, f k))).map Prod.fst := by
        simp only [List.map_map]
        intro hmem
        apply hklnot
        apply List.mem_cons_of_mem
        simpa using hmem
      obtain ⟨hfc, httlf⟩ := value_at_capacity
        (valueAll (((CacheNode.new).set_capacity c).with_memo f)
          (kq0 :: kqt) t) kl t (kq0, f kq0) (kqt.map (fun k => (k, f k)))
        hcache' hget hfull hklnotq
      have httl2 : (valueAll (((CacheNode.new : CacheNode K V
          Initialized).set_capacity c).with_memo f) ((kq0 :: kqt) ++ [kl])
            t).ttl
          = (((CacheNode.new : CacheNode K V Initialized).set_capacity
            c).with_memo f).ttl := by
        rw [hsplit, httlf, httl1]
      constructor
      · rw [hsplit, hfc, hctrl1]
        simp
        rfl
      · intro k now hsome
        apply value_fresh_hit_preserves _ k now _ hsome
        unfold CacheNode.validate_expiration
        rw [httl2]
        rfl
  have hinsert :
      (insertAll ((CacheNode.new).set_capacity c) ps).cache = ps.drop 1 ∧
      ∀ (k : K) (now : Nat),
        ((insertAll ((CacheNode.new).set_capacity c) ps).get k now).2.cache
          = (insertAll ((CacheNode.new).set_capacity c) ps).cache := by
    have hps : ps ≠ [] := by
      intro h
      rw [h] at hlen
      simp at hlen
    obtain ⟨q, pl, rfl⟩ : ∃ q pl, ps = q ++ [pl] :=
      ⟨ps.dropLast, ps.getLast hps, (List.dropLast_append_getLast hps).symm⟩
    have hqlen : q.length = c := by
      rw [List.length_append] at hlen
      simpa using hlen
    have hnd1 : ((((CacheNode.new : CacheNode K V Initialized).set_capacity
        c).cache ++ q).map Prod.fst).Nodup := by
      rw [List.map_append] at hnd
      exact hnd.of_append_left
    have hlen1 : ((CacheNode.new : CacheNode K V Initialized).set_capacity
        c).cache.length + q.length
        ≤ ((CacheNode.new : CacheNode K V Initialized).set_capacity
          c).capacity := by
      show 0 + q.length ≤ c
      omega
    obtain ⟨hcache1, hcap1, httl1⟩ := insertAll_under_capacity q
      ((CacheNode.new : CacheNode K V Initialized).set_capacity c) hnd1 hlen1
    have hsplit : insertAll ((CacheNode.new : CacheNode K V
        Initialized).set_capacity c) (q ++ [pl])
        = (insertAll ((CacheNode.new).set_capacity c) q).insert pl.1 pl.2 := by
      unfold insertAll
      rw [List.foldl_append]
      rfl
    cases q with
    | nil =>
      exfalso
      simp at hqlen
      omega
    | cons q0 qt =>
      have hcache1' : (insertAll ((CacheNode.new : CacheNode K V
          Initialized).set_capacity c) (q0 :: qt)).cache = q0 :: qt := by
        rw [hcache1]
        rfl
      have hfull : ¬ (insertAll ((CacheNode.new : CacheNode K V
          Initialized).set_capacity c) (q0 :: qt)).cache.length
          < (insertAll ((CacheNode.new).set_capacity c) (q0 :: qt)).capacity := by
        rw [hcache1', hcap1]
        show ¬ (q0 :: qt).length < c
        omega
      have hplnot : pl.1 ∉ qt.map Prod.fst := by
        rw [List.map_append] at hnd
        intro hmem
        exact List.disjoint_of_nodup_append hnd
          (List.mem_cons_of_mem _ hmem) (by simp)
      have hfc : (insertAll ((CacheNode.new : CacheNode K V
          Initialized).set_capacity c) ((q0 :: qt) ++ [pl])).cache
          = qt ++ [pl] := by
        rw [hsplit]
        exact insert_at_capacity _ pl.1 pl.2 q0 qt hcache1' hfull hplnot
      refine ⟨by rw [hfc]; simp, ?_⟩
      intro k now
      apply get_fresh_preserves
      have httlf : (insertAll ((CacheNode.new : CacheNode K V
          Initialized).set_capacity c) ((q0 :: qt) ++ [pl])).ttl
          = (CacheNode.new : CacheNode K V Initialized).ttl := by
        rw [hsplit]
        rw [(insert_fields _ pl.1 pl.2).2.1, httl1]
        rfl
      unfold CacheNode.validate_expiration
      rw [httlf]
      rfl
  exact ⟨hinsert.1, hinsert.2, hvalue.1, hvalue.2⟩

/-- Claim C5 (witness): capacity 2, inserting three distinct keys, once by
`insert` with pairs (1,10),(2,20),(3,30) and once by `value` misses with
keys 1,2,3 under `sq`; each store ends as the last two entries and reads
change nothing. -/
theorem C5_fifo_eviction_witness :
    1 ≤ 2 ∧ ([((1 : Nat), (10 : Nat)), (2, 20), (3, 30)].length = 2 + 1) ∧
    ([((1 : Nat), (10 : Nat)), (2, 20), (3, 30)].map Prod.fst).Nodup ∧
    ([(1 : Nat), 2, 3].length = 2 + 1) ∧ ([(1 : Nat), 2, 3].Nodup) ∧
    ((insertAll ((CacheNode.new).set_capacity 2)
        [((1 : Nat), (10 : Nat)), (2, 20), (3, 30)]).cache
      = [((1 : Nat), (10 : Nat)), (2, 20), (3, 30)].drop 1 ∧
    (∀ (k : Nat) (now : Nat),
      ((insertAll ((CacheNode.new).set_capacity 2)
          [((1 : Nat), (10 : Nat)), (2, 20), (3, 30)]).get k now).2.cache
        = (insertAll ((CacheNode.new).set_capacity 2)
            [((1 : Nat), (10 : Nat)), (2, 20), (3, 30)]).cache) ∧
    (valueAll (((CacheNode.new).set_capacity 2).with_memo sq) [1, 2, 3]
        0).cache
      = ([(1 : Nat), 2, 3].map (fun k => (k, sq k))).drop 1 ∧
    ∀ (k : Nat) (now : Nat),
      (lhmGet (valueAll (((CacheNode.new).set_capacity 2).with_memo sq)
          [1, 2, 3] 0).cache k).isSome = true →
      ((valueAll (((CacheNode.new).set_capacity 2).with_memo sq) [1, 2, 3]
          0).value k now).2
        = valueAll (((CacheNode.new).set_capacity 2).with_memo sq)
            [1, 2, 3] 0) :=
  ⟨by decide, by decide, by decide, by decide, by decide,
    C5_fifo_eviction 2 [((1 : Nat), (10 : Nat)), (2, 20), (3, 30)] sq
      [1, 2, 3] 0 (by decide) (by decide) (by decide) (by decide)
      (by decide)⟩

/-- Claim C6 (counterexample): two `value(2)` calls at the same instant 1
(immediate succession, so no TTL expiry can occur between them) on a node
whose TTL already lay in the past invoke the computation once each — two
invocations in total — because the miss path never renews the expiration, so
the second call finds the key present but stale and recomputes. -/
theorem C6_double_computation_counterexample :
    staleEmpty.valueCalls 2 1 = 1 ∧
    ((staleEmpty.value 2 1).2).valueCalls 2 1 = 1 ∧
    staleEmpty.valueCalls 2 1 + ((staleEmpty.value 2 1).2).valueCalls 2 1 = 2 := by
  refine ⟨rfl, rfl, rfl⟩

/-- Claim C6 (amended): when the node is fresh at both call instants (in
particular the TTL has not expired before or between the calls), two
successive `value(k)` calls invoke the attached computation at most once in
total and return equal results; the original claim fails when the TTL
already lay in the past at the first call, as the counterexample shows. -/
theorem C6_memoize_idempotent_when_fresh (n : CacheNode K V (Memoized K V))
    (k : K) (t1 t2 : Nat)
    (h1 : n.validate_expiration t1 = true)
    (h2 : n.validate_expiration t2 = true) :
    (n.value k t1).1 = ((n.value k t1).2.value k t2).1 ∧
    n.valueCalls k t1 + (n.value k t1).2.valueCalls k t2 ≤ 1 := by
  cases hg : lhmGet n.cache k with
  | some v =>
    have hrun1 : n.value k t1 = (some v, n) := by
      unfold CacheNode.value
      simp [hg, h1]
    have hrun2 : n.value k t2 = (some v, n) := by
      unfold CacheNode.value
      simp [hg, h2]
    have hc1 : n.valueCalls k t1 = 0 := by
      unfold CacheNode.valueCalls
      simp [hg, h1]
    have hc2 : n.valueCalls k t2 = 0 := by
      unfold CacheNode.valueCalls
      simp [hg, h2]
    rw [hrun1]
    exact ⟨by rw [hrun2], by rw [hc1, hc2]; omega⟩
  | none =>
    obtain ⟨X, hrun1⟩ := value_miss n k t1 hg
    have key : ∀ w : CacheNode K V (Memoized K V),
        lhmGet w.cache k = some (n.controller.calculation k) →
        w.validate_expiration t2 = true →
        (w.value k t2).1 = some (n.controller.calculation k) ∧
          w.valueCalls k t2 = 0 := by
      intro w hw1 hw2
      constructor
      · unfold CacheNode.value
        simp [hw1, hw2]
      · unfold CacheNode.valueCalls
        simp [hw1, hw2]
    have hw1 : lhmGet ((n.value k t1).2).cache k
        = some (n.controller.calculation k) := by
      rw [hrun1]
      exact lhmGet_lhmInsert_self X k _
    have hw2 : ((n.value k t1).2).validate_expiration t2 = true := by
      rw [hrun1]
      exact h2
    obtain ⟨hrun2, hc2⟩ := key (n.value k t1).2 hw1 hw2
    have hc1 : n.valueCalls k t1 = 1 := by
      unfold CacheNode.valueCalls
      simp [hg]
    constructor
    · rw [hrun2, hrun1]
    · rw [hc1, hc2]

/-- Claim C6 (witness): the amended statement on a fresh default node
(no expiration set), two calls at instants 0 and 5. -/
theorem C6_memoize_idempotent_witness :
    memoCap1.validate_expiration 0 = true ∧
    memoCap1.validate_expiration 5 = true ∧
    ((memoCap1.value 2 0).1 = ((memoCap1.value 2 0).2.value 2 5).1 ∧
      memoCap1.valueCalls 2 0 + (memoCap1.value 2 0).2.valueCalls 2 5 ≤ 1) :=
  ⟨by decide, by decide,
    C6_memoize_idempotent_when_fresh memoCap1 2 0 5 (by decide) (by decide)⟩

/-- Invariant of repeated `value k` calls on the capacity-0 node: the store
is empty or holds exactly the single entry `(k, f k)`, the TTL options stay
at their defaults (no expiration), the capacity stays 0 and the computation
stays `f`. -/
theorem capZero_invariant {K V : Type} [DecidableEq K] (f : K → V) (k : K)
    (t : Nat) (m : Nat) :
    ((valueIter (capZeroNode f) k t m).cache = []
      ∨ (valueIter (capZeroNode f) k t m).cache = [(k, f k)]) ∧
    (valueIter (capZeroNode f) k t m).ttl.expiration = none ∧
    (valueIter (capZeroNode f) k t m).capacity = 0 ∧
    (valueIter (capZeroNode f) k t m).controller.calculation = f := by
  induction m with
  | zero => exact ⟨Or.inl rfl, rfl, rfl, rfl⟩
  | succ m ih =>
    obtain ⟨hcache, hexp, hcap, hcalc⟩ := ih
    have hstep : valueIter (capZeroNode f) k t (m + 1)
        = ((valueIter (capZeroNode f) k t m).value k t).2 := rfl
    rcases hcache with hc | hc
    · have hget : lhmGet (valueIter (capZeroNode f) k t m).cache k = none := by
        rw [hc]
        rfl
      have hck : ¬ (valueIter (capZeroNode f) k t m).check_capacity = true := by
        unfold CacheNode.check_capacity
        rw [hc, hcap]
        simp
      have hrun : (valueIter (capZeroNode f) k t m).value k t
          = (some ((valueIter (capZeroNode f) k t m).controller.calculation k),
            { cache := lhmInsert []
                k ((valueIter (capZeroNode f) k t m).controller.calculation k)
              ttl := (valueIter (capZeroNode f) k t m).ttl
              capacity := (valueIter (capZeroNode f) k t m).capacity
              controller := (valueIter (capZeroNode f) k t m).controller }) := by
        unfold CacheNode.value
        rw [hget]
        simp [hck, CacheNode.clean_up, hc, CacheNode.memoize]
      rw [hstep, hrun]
      refine ⟨Or.inr ?_, hexp, hcap, hcalc⟩
      rw [hcalc]
      rfl
    · have hget : lhmGet (valueIter (capZeroNode f) k t m).cache k
          = some (f k) := by
        rw [hc]
        simp [lhmGet]
      have hfresh : (valueIter (capZeroNode f) k t m).validate_expiration t
          = true := by
        unfold CacheNode.validate_expiration
        rw [hexp]
      have hrun : (valueIter (capZeroNode f) k t m).value k t
          = (some (f k), valueIter (capZeroNode f) k t m) := by
        unfold CacheNode.value
        simp [hget, hfresh]
      rw [hstep, hrun]
      exact ⟨Or.inr hc, hexp, hcap, hcalc⟩

/-- Claim C7 (counterexample): on the capacity-0 node, the first `value 2`
call leaves the entry `(2, 4)` retained in the store, and the second call
invokes the computation zero times — it serves the retained entry rather
than freshly computing on that call. -/
theorem C7_retained_entry_counterexample :
    (memoCap0.value 2 0).2.cache = [(2, 4)] ∧
    ((memoCap0.value 2 0).2).valueCalls 2 0 = 0 ∧
    ((memoCap0.value 2 0).2.value 2 0).1 = some 4 :=
  ⟨rfl, rfl, rfl⟩

/-- Claim C7 (amended): with capacity 0 (and the default TTL options, so no
expiration), every call in a repeated sequence of `value(k)` calls completes
and returns `some (f k)`, the value the attached computation gives for `k`;
but the store is not empty in general — it retains up to one entry, and a
repeat call may serve that retained entry instead of recomputing, as the
counterexample shows. -/
theorem C7_capacity_zero_always_computes (f : K → V) (k : K) (t m : Nat) :
    ((valueIter (capZeroNode f) k t m).value k t).1 = some (f k) ∧
    (valueIter (capZeroNode f) k t m).cache.length ≤ 1 := by
  obtain ⟨hcache, hexp, hcap, hcalc⟩ := capZero_invariant f k t m
  have hfresh : (valueIter (capZeroNode f) k t m).validate_expiration t
      = true := by
    unfold CacheNode.validate_expiration
    rw [hexp]
  constructor
  · rcases hcache with hc | hc
    · have hget : lhmGet (valueIter (capZeroNode f) k t m).cache k = none := by
        rw [hc]
        rfl
      obtain ⟨X, hrun⟩ := value_miss (valueIter (capZeroNode f) k t m) k t hget
      rw [hrun, hcalc]
    · have hget : lhmGet (valueIter (capZeroNode f) k t m).cache k
          = some (f k) := by
        rw [hc]
        simp [lhmGet]
      unfold CacheNode.value
      simp [hget, hfresh]
  · rcases hcache with hc | hc <;> simp [hc]

omit [DecidableEq K] in
/-- Claim C8: `validate_expiration` reports fresh exactly when no expiration
instant is set or the read instant is at or before it; hence after
`expires 0` at instant `t0`, every read strictly after `t0` is stale. -/
theorem C8_validate_expiration_iff (n : CacheNode K V S) (t0 t : Nat)
    (h : t0 < t) :
    (n.validate_expiration t = true ↔
      (n.ttl.expiration = none ∨ ∃ e, n.ttl.expiration = some e ∧ t ≤ e)) ∧
    (n.expires 0 t0).validate_expiration t = false := by
  constructor
  · unfold CacheNode.validate_expiration
    cases hexp : n.ttl.expiration with
    | none => simp
    | some e =>
      simp only [hexp]
      constructor
      · intro hfresh
        right
        refine ⟨e, rfl, ?_⟩
        by_contra hlt
        rw [if_pos (Nat.lt_of_not_le hlt)] at hfresh
        exact Bool.false_ne_true hfresh
      · rintro (hnone | ⟨e', he', hle⟩)
        · exact absurd hnone (Option.some_ne_none e)
        · rw [Option.some_inj] at he'
          subst he'
          rw [if_neg (Nat.not_lt_of_le hle)]
  · unfold CacheNode.expires CacheNode.validate_expiration
    simp only []
    rw [if_pos]
    simpa using h

/-- Claim C8 (witness): the statement at the default `Nat` node, configured
at instant 0 and read at instant 1. -/
theorem C8_validate_expiration_witness :
    (0 : Nat) < 1 ∧
    (((CacheNode.new : CacheNode Nat Nat Initialized).validate_expiration 1
        = true ↔
      ((CacheNode.new : CacheNode Nat Nat Initialized).ttl.expiration = none ∨
        ∃ e, (CacheNode.new : CacheNode Nat Nat Initialized).ttl.expiration
          = some e ∧ 1 ≤ e)) ∧
    (((CacheNode.new : CacheNode Nat Nat Initialized).expires 0
        0).validate_expiration 1 = false)) :=
  ⟨Nat.zero_lt_one,
    C8_validate_expiration_iff (CacheNode.new : CacheNode Nat Nat Initialized)
      0 1 Nat.zero_lt_one⟩

omit [DecidableEq K] in
/-- Claim C9: `expires s` at instant `now` sets the expiration instant to
`now + s` and the revalidation duration to `s` (overwriting the default 10),
leaving the action, the cache and the capacity unchanged — so the sliding
TTL length is not configurable independently of the initial window. -/
theorem C9_expires_sets_both (n : CacheNode K V S) (s now : Nat) :
    (n.expires s now).ttl.expiration = some (now + s) ∧
    (n.expires s now).ttl.revalidation.duration = s ∧
    (n.expires s now).ttl.revalidation.action = n.ttl.revalidation.action ∧
    (n.expires s now).cache = n.cache ∧
    (n.expires s now).capacity = n.capacity ∧
    (CacheNode.new : CacheNode K V Initialized).ttl.revalidation.duration
      = DEFAULT_TTL_DURATION :=
  ⟨rfl, rfl, rfl, rfl, rfl, rfl⟩

omit [DecidableEq K] in
/-- Claim C10: `with_memo` carries the cache entries, the capacity and every
TTL option over unchanged, and only installs the computation. -/
theorem C10_with_memo_preserves_fields (n : CacheNode K V Initialized)
    (f : K → V) :
    (n.with_memo f).cache = n.cache ∧
    (n.with_memo f).ttl = n.ttl ∧
    (n.with_memo f).capacity = n.capacity ∧
    (n.with_memo f).controller.calculation = f :=
  ⟨rfl, rfl, rfl, rfl⟩

end Claims

end Rustache
